import Mathlib

/-!
# Verification of the open-rcv ballot counting core

A shallow embedding of the open-rcv ballot codec, normalizer and
per-round tallying primitives, with theorems checking the natural
language specification against it.

The repository sources available to us contain only the test suite for
`openrcv.counting`, `openrcv.parsing` and `openrcv.utils`; the
implementation modules themselves are absent.  The definitions below are
therefore modelled from the specification's component design (§4) and
checked against the concrete expectations recorded in the test files
`test_counting.py` and `test_utils.py`.

Lines are modelled as lists of characters, weights and candidate ids as
natural numbers, and fallible operations return `Except`.
-/

namespace OpenRCV

/-- Whitespace characters recognised when splitting a ballot line. -/
def isWS (c : Char) : Bool :=
  c = ' ' || c = '\n' || c = '\t' || c = '\r'

/-- Accumulating splitter: `acc` holds the current token reversed.
Modelled from the spec: `openrcv.parsing` is absent from the sources;
§4.1 says `parse` "splits the line on whitespace (leading/trailing
whitespace ignored)". -/
def splitWSAux : List Char → List Char → List (List Char)
  | [], acc => if acc = [] then [] else [acc.reverse]
  | c :: cs, acc =>
    if isWS c then
      if acc = [] then splitWSAux cs [] else acc.reverse :: splitWSAux cs []
    else
      splitWSAux cs (c :: acc)

/-- Split a line into whitespace-separated tokens. -/
def splitWS (line : List Char) : List (List Char) :=
  splitWSAux line []

/-- Is `c` a decimal digit? -/
def isDigitChar (c : Char) : Bool :=
  48 ≤ c.toNat && c.toNat ≤ 57

/-- Numeric value of a digit character. -/
def charDigit (c : Char) : Nat :=
  c.toNat - 48

/-- Character for a single decimal digit. -/
def digitChar (d : Nat) : Char :=
  Char.ofNat (48 + d)

/-- Parse a token as a non-negative decimal integer; `none` when the
token is empty or contains a non-digit character.  Modelled from the
spec: §4.1, each token is "parsed as a non-negative integer". -/
def parseNatTok (tok : List Char) : Option Nat :=
  if tok ≠ [] ∧ tok.all isDigitChar then
    some (tok.foldl (fun a c => 10 * a + charDigit c) 0)
  else
    none

/-- Errors of the ballot codec.  `badToken` names the offending token,
as §7 requires of `ParseError`; `emptyLine` reports a line with no
tokens at all (no weight present). -/
inductive ParseError
  | badToken (tok : List Char)
  | emptyLine
deriving DecidableEq, Repr

/-- Parse one token, naming it in the error on failure. -/
def parseTok (tok : List Char) : Except ParseError Nat :=
  match parseNatTok tok with
  | some n => .ok n
  | none => .error (.badToken tok)

/-- Parse a list of tokens in order. -/
def parseToks : List (List Char) → Except ParseError (List Nat)
  | [] => .ok []
  | tok :: toks =>
    match parseTok tok, parseToks toks with
    | .ok n, .ok ns => .ok (n :: ns)
    | .error e, _ => .error e
    | .ok _, .error e => .error e

/-- `parse_internal_ballot line` from `openrcv.parsing`.  Modelled from
the spec: the module is absent from the sources; §4.1 says the line is
split on whitespace, the first token is the weight, the remaining
tokens are the choices in order, and any non-integer token is a
`ParseError` naming that token. -/
def parse_internal_ballot (line : List Char) :
    Except ParseError (Nat × List Nat) :=
  match splitWS line with
  | [] => .error .emptyLine
  | wtok :: ctoks =>
    match parseTok wtok, parseToks ctoks with
    | .ok w, .ok cs => .ok (w, cs)
    | .error e, _ => .error e
    | .ok _, .error e => .error e

/-- Little-endian decimal digits, structurally recursive on a fuel
argument so that it reduces inside the kernel. -/
def toDigitsRevFuel : Nat → Nat → List Nat
  | _, 0 => []
  | n, fuel + 1 =>
    if n < 10 then [n] else (n % 10) :: toDigitsRevFuel (n / 10) fuel

/-- Little-endian decimal digits of `n` (least significant first). -/
def toDigitsRev (n : Nat) : List Nat :=
  toDigitsRevFuel n (n + 1)

/-- Decimal rendering of a natural number. -/
def natToChars (n : Nat) : List Char :=
  (toDigitsRev n).reverse.map digitChar

/-- `serialize` from §4.1.  Modelled from the spec: writes the weight
followed by each choice, space-separated, terminated by a line break. -/
def serialize_ballot (b : Nat × List Nat) : List Char :=
  natToChars b.1 ++ (b.2.map (fun c => ' ' :: natToChars c)).flatten ++ ['\n']

/-- Lexicographic comparison of choice sequences: the empty sequence is
least, and a shorter sequence precedes any extension of it.  This is the
ordering §4.2 sorts the normalized groups by. -/
def lexLe : List Nat → List Nat → Bool
  | [], _ => true
  | _ :: _, [] => false
  | a :: as, b :: bs =>
    if a < b then true
    else if a = b then lexLe as bs
    else false

/-- The total weight that a list of parsed ballots assigns to the exact
choice sequence `c` (§4.2: "sums weights within each group"). -/
def groupTotal (ballots : List (Nat × List Nat)) (c : List Nat) : Nat :=
  ((ballots.filter (fun b => b.2 = c)).map Prod.fst).sum

/-- The distinct choice sequences of `ballots`, in ascending
lexicographic order. -/
def normKeys (ballots : List (Nat × List Nat)) : List (List Nat) :=
  List.insertionSort (fun a b => lexLe a b) (ballots.map Prod.snd).dedup

/-- Normalization of parsed ballots.  Modelled from the spec: §4.2
groups ballots whose `choices` sequences are exactly equal, sums weights
within each group, and yields one entry per group in ascending
lexicographic order of `choices`. -/
def normalizeBallots (ballots : List (Nat × List Nat)) :
    List (Nat × List Nat) :=
  (normKeys ballots).map (fun c => (groupTotal ballots c, c))

/-- Parse every line in order, propagating the first `ParseError`. -/
def parseAll : List (List Char) → Except ParseError (List (Nat × List Nat))
  | [] => .ok []
  | line :: lines =>
    match parse_internal_ballot line, parseAll lines with
    | .ok b, .ok bs => .ok (b :: bs)
    | .error e, _ => .error e
    | .ok _, .error e => .error e

/-- `normalized_ballots(lines)` from `openrcv.counting`.  Modelled from
the spec: the module is absent from the sources; §4.2 parses every line
via the codec and normalizes the resulting ballots. -/
def normalized_ballots (lines : List (List Char)) :
    Except ParseError (List (Nat × List Nat)) :=
  (parseAll lines).map normalizeBallots

/-- Tallying error: a ballot's leading choice is outside the declared
candidate set (§4.4, `UnknownCandidate`). -/
inductive TallyError
  | unknownCandidate (c : Nat)
deriving DecidableEq, Repr

/-- Zero totals for every declared candidate (§4.4: "initializes a
total of 0 for every ID in `candidates`"). -/
def initTotals (candidates : List Nat) : List (Nat × Nat) :=
  candidates.map (fun c => (c, 0))

/-- Add `w` votes to candidate `c` in an association-list of totals;
`none` when `c` has no entry. -/
def addVote : List (Nat × Nat) → Nat → Nat → Option (List (Nat × Nat))
  | [], _, _ => none
  | (c', v) :: rest, c, w =>
    if c' = c then some ((c', v + w) :: rest)
    else (addVote rest c w).map (fun t => (c', v) :: t)

/-- Core tally loop.  Modelled from the spec: §4.4, for each parsed
`(weight, choices)` with non-empty `choices` adds `weight` to the total
of `choices[0]`, failing with `UnknownCandidate` when that leading
choice has no entry; exhausted ballots contribute to no total. -/
def tallyBallots :
    List (Nat × List Nat) → List (Nat × Nat) →
    Except TallyError (List (Nat × Nat))
  | [], totals => .ok totals
  | (_, []) :: rest, totals => tallyBallots rest totals
  | (w, c :: _) :: rest, totals =>
    match addVote totals c w with
    | some totals' => tallyBallots rest totals'
    | none => .error (.unknownCandidate c)

/-- `tally(ballot_source, candidates)` over already-parsed ballots. -/
def tally (ballots : List (Nat × List Nat)) (candidates : List Nat) :
    Except TallyError (List (Nat × Nat)) :=
  tallyBallots ballots (initTotals candidates)

/-- Errors of `count_internal_ballots`: a codec error or a tally
error. -/
inductive CountError
  | parse (e : ParseError)
  | tallyErr (e : TallyError)
deriving DecidableEq, Repr

/-- `count_internal_ballots(stream, candidates)` from
`openrcv.counting`.  Modelled from the spec: the module is absent from
the sources; it parses each line of the ballot stream and tallies the
results over the candidate set (§4.4). -/
def count_internal_ballots (lines : List (List Char))
    (candidates : List Nat) : Except CountError (List (Nat × Nat)) :=
  match parseAll lines with
  | .error e => .error (.parse e)
  | .ok ballots =>
    match tally ballots candidates with
    | .error e => .error (.tallyErr e)
    | .ok totals => .ok totals

/-- The total stored for candidate `c` in an association-list of
totals (sum over all entries with key `c`). -/
def getTotal (totals : List (Nat × Nat)) (c : Nat) : Nat :=
  ((totals.filter (fun p => p.1 = c)).map Prod.snd).sum

/-- Sum of the weights of the ballots whose first choice is `c`. -/
def firstChoiceWeight (ballots : List (Nat × List Nat)) (c : Nat) : Nat :=
  ((ballots.filter (fun b => b.2.head? = some c)).map Prod.fst).sum

/-- `get_majority(total)` from `openrcv.counting`.  Modelled from the
spec: the module is absent from the sources; §4.5 defines it as
`totalVotes / 2` (integer floor division) plus 1. -/
def get_majority (totalVotes : Nat) : Nat :=
  totalVotes / 2 + 1

/-- `get_winner(totals)` from `openrcv.counting`.  Modelled from the
spec: the module is absent from the sources; §4.5 returns the candidate
whose total reaches the majority threshold when exactly one exists,
else none. -/
def get_winner (totals : List (Nat × Nat)) : Option Nat :=
  match totals.filter
      (fun p => get_majority ((totals.map Prod.snd).sum) ≤ p.2) with
  | [p] => some p.1
  | _ => none

/-- Elimination-selector error: no totals to select from (§4.6,
`EmptyInputError`). -/
inductive LowestError
  | emptyInput
deriving DecidableEq, Repr

/-- Least vote total appearing in a non-empty totals list. -/
def minTotal : List (Nat × Nat) → Nat
  | [] => 0
  | p :: rest => rest.foldl (fun a q => min a q.2) p.2

/-- `get_lowest(totals)` from `openrcv.counting`.  Modelled from the
spec: the module is absent from the sources; §4.6 returns every
candidate whose total equals the minimum, and fails with an
`EmptyInputError` when `totals` is empty. -/
def get_lowest (totals : List (Nat × Nat)) :
    Except LowestError (List Nat) :=
  match totals with
  | [] => .error .emptyInput
  | p :: rest =>
    .ok (((p :: rest).filter
      (fun q => q.2 = minTotal (p :: rest))).map Prod.fst)

/-- `openrcv.utils.StringInfo`: an in-memory stream whose contents are
exposed through the `value` attribute; `value = none` models an
uninitialized stream.  Modelled from the spec: the module is absent
from the sources; §4.3/§5 describe it as a scoped readable/writable
resource, and its tests fix the write-path behaviour. -/
structure StringInfo where
  value : Option (List Char)
deriving DecidableEq, Repr

/-- Error raised when opening a `StringInfo` for writing whose value is
already set (Python `ValueError`). -/
inductive StringInfoError
  | valueError
deriving DecidableEq, Repr

/-- Open a `StringInfo` for writing, write `text`, and close the scope.
Modelled from the spec: opening for writing fails with `ValueError`
when `value` is not `None` (even the empty string); otherwise the
written text becomes available in `value` once the scope closes. -/
def stringInfoWrite (s : StringInfo) (text : List Char) :
    Except StringInfoError StringInfo :=
  match s.value with
  | none => .ok { value := some text }
  | some _ => .error .valueError

/-- Value of a little-endian list of decimal digits. -/
def valLE : List Nat → Nat
  | [] => 0
  | d :: ds => d + 10 * valLE ds

lemma charDigit_digitChar (d : Nat) (h : d < 10) :
    charDigit (digitChar d) = d := by
  interval_cases d <;> decide

lemma isDigitChar_digitChar (d : Nat) (h : d < 10) :
    isDigitChar (digitChar d) = true := by
  interval_cases d <;> decide

lemma isWS_digitChar (d : Nat) (h : d < 10) :
    isWS (digitChar d) = false := by
  interval_cases d <;> decide

lemma toDigitsRevFuel_spec :
    ∀ fuel n, n < fuel →
      toDigitsRevFuel n fuel ≠ [] ∧
      (∀ d ∈ toDigitsRevFuel n fuel, d < 10) ∧
      valLE (toDigitsRevFuel n fuel) = n := by
  intro fuel
  induction fuel with
  | zero => intro n hn; omega
  | succ f ih =>
    intro n hn
    by_cases h10 : n < 10
    · refine ⟨by simp [toDigitsRevFuel, h10], ?_, ?_⟩
      · intro d hd
        simp [toDigitsRevFuel, h10] at hd
        omega
      · simp [toDigitsRevFuel, h10, valLE]
    · have hdiv : n / 10 < f := by
        have h1 : n / 10 < n := Nat.div_lt_self (by omega) (by omega)
        omega
      obtain ⟨h1, h2, h3⟩ := ih (n / 10) hdiv
      refine ⟨by simp [toDigitsRevFuel, h10], ?_, ?_⟩
      · intro d hd
        simp only [toDigitsRevFuel, if_neg h10, List.mem_cons] at hd
        rcases hd with hd | hd
        · omega
        · exact h2 d hd
      · simp only [toDigitsRevFuel, if_neg h10, valLE, h3]
        omega

lemma toDigitsRev_ne_nil (n : Nat) : toDigitsRev n ≠ [] :=
  (toDigitsRevFuel_spec (n + 1) n (by omega)).1

lemma toDigitsRev_lt_ten (n : Nat) : ∀ d ∈ toDigitsRev n, d < 10 :=
  (toDigitsRevFuel_spec (n + 1) n (by omega)).2.1

lemma valLE_toDigitsRev (n : Nat) : valLE (toDigitsRev n) = n :=
  (toDigitsRevFuel_spec (n + 1) n (by omega)).2.2

lemma foldl_map_digitChar :
    ∀ (ds : List Nat), (∀ d ∈ ds, d < 10) → ∀ (a : Nat),
      (ds.map digitChar).foldl (fun x c => 10 * x + charDigit c) a =
      ds.foldl (fun x d => 10 * x + d) a := by
  intro ds
  induction ds with
  | nil => intro _ a; rfl
  | cons d ds ih =>
    intro h a
    simp only [List.map_cons, List.foldl_cons]
    rw [charDigit_digitChar d (h d (by simp))]
    exact ih (fun x hx => h x (by simp [hx])) _

lemma foldl_reverse_valLE :
    ∀ (ds : List Nat) (a : Nat),
      ds.reverse.foldl (fun x d => 10 * x + d) a =
      a * 10 ^ ds.length + valLE ds := by
  intro ds
  induction ds with
  | nil => intro a; simp [valLE]
  | cons d ds ih =>
    intro a
    simp only [List.reverse_cons, List.foldl_append, List.foldl_cons,
      List.foldl_nil, ih, valLE, List.length_cons]
    ring

lemma natToChars_ne_nil (n : Nat) : natToChars n ≠ [] := by
  simp only [natToChars, ne_eq, List.map_eq_nil_iff, List.reverse_eq_nil_iff]
  exact toDigitsRev_ne_nil n

lemma natToChars_all_digit (n : Nat) :
    ∀ c ∈ natToChars n, isDigitChar c = true := by
  intro c hc
  simp only [natToChars, List.mem_map, List.mem_reverse] at hc
  obtain ⟨d, hd, rfl⟩ := hc
  exact isDigitChar_digitChar d (toDigitsRev_lt_ten n d hd)

lemma natToChars_no_ws (n : Nat) :
    ∀ c ∈ natToChars n, isWS c = false := by
  intro c hc
  simp only [natToChars, List.mem_map, List.mem_reverse] at hc
  obtain ⟨d, hd, rfl⟩ := hc
  exact isWS_digitChar d (toDigitsRev_lt_ten n d hd)

lemma parseNatTok_natToChars (n : Nat) :
    parseNatTok (natToChars n) = some n := by
  have hall : (natToChars n).all isDigitChar = true :=
    List.all_eq_true.mpr (fun c hc => natToChars_all_digit n c hc)
  simp only [parseNatTok, if_pos (And.intro (natToChars_ne_nil n) hall)]
  have h1 : natToChars n = ((toDigitsRev n).reverse).map digitChar := rfl
  rw [h1, foldl_map_digitChar ((toDigitsRev n).reverse)
    (fun d hd => toDigitsRev_lt_ten n d (List.mem_reverse.mp hd)) 0,
    foldl_reverse_valLE, valLE_toDigitsRev]
  simp

lemma splitWSAux_append_tok :
    ∀ (tok : List Char), (∀ c ∈ tok, isWS c = false) →
      ∀ (cs acc : List Char),
        splitWSAux (tok ++ cs) acc = splitWSAux cs (tok.reverse ++ acc) := by
  intro tok
  induction tok with
  | nil => intro _ cs acc; simp
  | cons c tok ih =>
    intro h cs acc
    simp only [List.cons_append, splitWSAux, h c (by simp)]
    rw [if_neg (by simp [h c (by simp)])]
    rw [show tok.append cs = tok ++ cs from rfl]
    rw [ih (fun x hx => h x (by simp [hx])) cs (c :: acc)]
    simp

lemma splitWSAux_serialize_tail :
    ∀ (cs : List Nat) (acc : List Char), acc ≠ [] →
      splitWSAux ((cs.map (fun c => ' ' :: natToChars c)).flatten ++ ['\n']) acc
        = acc.reverse :: cs.map natToChars := by
  intro cs
  induction cs with
  | nil =>
    intro acc h
    simp [splitWSAux, isWS, h]
  | cons c cs ih =>
    intro acc h
    simp only [List.map_cons, List.flatten_cons, List.cons_append,
      List.append_assoc]
    rw [show splitWSAux (' ' :: (natToChars c ++
        ((cs.map (fun x => ' ' :: natToChars x)).flatten ++ ['\n']))) acc
      = acc.reverse :: splitWSAux (natToChars c ++
        ((cs.map (fun x => ' ' :: natToChars x)).flatten ++ ['\n'])) [] by
      simp [splitWSAux, isWS, h]]
    rw [splitWSAux_append_tok (natToChars c) (natToChars_no_ws c)]
    rw [ih ((natToChars c).reverse ++ [])
      (by simp [natToChars_ne_nil c])]
    simp

lemma splitWS_serialize (b : Nat × List Nat) :
    splitWS (serialize_ballot b) = natToChars b.1 :: b.2.map natToChars := by
  obtain ⟨w, cs⟩ := b
  simp only [splitWS, serialize_ballot, List.append_assoc]
  rw [splitWSAux_append_tok (natToChars w) (natToChars_no_ws w)]
  rw [splitWSAux_serialize_tail cs ((natToChars w).reverse ++ [])
    (by simp [natToChars_ne_nil w])]
  simp

lemma parseTok_natToChars (n : Nat) : parseTok (natToChars n) = .ok n := by
  simp [parseTok, parseNatTok_natToChars]

lemma parseToks_map_natToChars :
    ∀ (cs : List Nat), parseToks (cs.map natToChars) = .ok cs := by
  intro cs
  induction cs with
  | nil => rfl
  | cons c cs ih =>
    simp [parseToks, parseTok_natToChars, ih]

/-- §4.1 round-trip: `serialize` and `parse` invert each other on any
ballot. -/
theorem parse_serialize (b : Nat × List Nat) :
    parse_internal_ballot (serialize_ballot b) = .ok b := by
  obtain ⟨w, cs⟩ := b
  simp [parse_internal_ballot, splitWS_serialize (w, cs),
    parseTok_natToChars, parseToks_map_natToChars]

lemma parseToks_ok_map :
    ∀ (toks : List (List Char)) (ns : List Nat),
      parseToks toks = .ok ns → toks.map parseNatTok = ns.map some := by
  intro toks
  induction toks with
  | nil =>
    intro ns h
    simp only [parseToks] at h
    cases h
    rfl
  | cons tok toks ih =>
    intro ns h
    simp only [parseToks] at h
    cases h1 : parseTok tok with
    | error e => rw [h1] at h; cases h
    | ok n =>
      rw [h1] at h
      cases h2 : parseToks toks with
      | error e => rw [h2] at h; cases h
      | ok ns2 =>
        rw [h2] at h
        cases h
        have htok : parseNatTok tok = some n := by
          simp only [parseTok] at h1
          cases h3 : parseNatTok tok with
          | none => rw [h3] at h1; cases h1
          | some m => rw [h3] at h1; cases h1; rfl
        simp [htok, ih ns2 h2]

lemma parseToks_error_mem :
    ∀ (toks : List (List Char)) (t : List Char),
      parseToks toks = .error (.badToken t) →
      t ∈ toks ∧ parseNatTok t = none := by
  intro toks
  induction toks with
  | nil => intro t h; cases h
  | cons tok toks ih =>
    intro t h
    simp only [parseToks] at h
    cases h1 : parseTok tok with
    | error e =>
      rw [h1] at h
      cases h
      simp only [parseTok] at h1
      cases h3 : parseNatTok tok with
      | none =>
        rw [h3] at h1
        cases h1
        exact ⟨by simp, h3⟩
      | some m => rw [h3] at h1; cases h1
    | ok n =>
      rw [h1] at h
      cases h2 : parseToks toks with
      | error e =>
        rw [h2] at h
        cases h
        obtain ⟨hm, hn⟩ := ih t h2
        exact ⟨by simp [hm], hn⟩
      | ok ns => rw [h2] at h; cases h

lemma parseToks_mem_error :
    ∀ (toks : List (List Char)),
      (∃ t ∈ toks, parseNatTok t = none) →
      ∃ t, parseToks toks = .error (.badToken t) := by
  intro toks
  induction toks with
  | nil => intro h; simp at h
  | cons tok toks ih =>
    intro h
    cases h3 : parseNatTok tok with
    | none =>
      refine ⟨tok, ?_⟩
      simp [parseToks, parseTok, h3]
    | some n =>
      obtain ⟨t, ht, htn⟩ := h
      have htmem : t ∈ toks := by
        rcases List.mem_cons.mp ht with rfl | hm
        · rw [h3] at htn; cases htn
        · exact hm
      obtain ⟨t2, ht2⟩ := ih ⟨t, htmem, htn⟩
      refine ⟨t2, ?_⟩
      simp [parseToks, parseTok, h3, ht2]

lemma parseTok_ok (tok : List Char) (n : Nat) (h : parseTok tok = .ok n) :
    parseNatTok tok = some n := by
  simp only [parseTok] at h
  cases h3 : parseNatTok tok with
  | none => rw [h3] at h; cases h
  | some m => rw [h3] at h; cases h; rfl

lemma parseTok_error (tok : List Char) (e : ParseError)
    (h : parseTok tok = .error e) :
    e = .badToken tok ∧ parseNatTok tok = none := by
  simp only [parseTok] at h
  cases h3 : parseNatTok tok with
  | none => rw [h3] at h; cases h; exact ⟨rfl, rfl⟩
  | some m => rw [h3] at h; cases h

lemma parseToks_error_shape :
    ∀ (toks : List (List Char)) (e : ParseError),
      parseToks toks = .error e → ∃ t, e = .badToken t := by
  intro toks
  induction toks with
  | nil => intro e h; cases h
  | cons tok toks ih =>
    intro e h
    simp only [parseToks] at h
    cases h1 : parseTok tok with
    | error e2 =>
      rw [h1] at h
      cases h
      exact ⟨tok, (parseTok_error tok e h1).1⟩
    | ok n =>
      rw [h1] at h
      cases h2 : parseToks toks with
      | error e2 => rw [h2] at h; cases h; exact ih e h2
      | ok ns => rw [h2] at h; cases h

lemma parseToks_ok_not_none (toks : List (List Char)) (ns : List Nat)
    (h : parseToks toks = .ok ns) :
    ∀ t ∈ toks, parseNatTok t ≠ none := by
  intro t ht
  have hmap := parseToks_ok_map toks ns h
  have : parseNatTok t ∈ toks.map parseNatTok := List.mem_map_of_mem _ ht
  rw [hmap] at this
  obtain ⟨n, _, hn⟩ := List.mem_map.mp this
  rw [← hn]
  simp

/-- Claim C7: `parse_internal_ballot` splits the line on whitespace, parses
the first token as the weight and the remaining tokens, in order, as
the choices, and fails with a `ParseError` naming an offending token
exactly when some token is not a valid integer; a token-less line is
reported as an empty line rather than a bad token. -/
theorem parse_internal_ballot_spec (line : List Char) :
    (∀ w cs, parse_internal_ballot line = .ok (w, cs) →
      ∃ wtok ctoks, splitWS line = wtok :: ctoks ∧
        parseNatTok wtok = some w ∧
        ctoks.map parseNatTok = cs.map some) ∧
    ((∃ t, parse_internal_ballot line = .error (.badToken t)) ↔
      ∃ t ∈ splitWS line, parseNatTok t = none) ∧
    (parse_internal_ballot line = .error .emptyLine ↔ splitWS line = []) ∧
    (∀ t, parse_internal_ballot line = .error (.badToken t) →
      t ∈ splitWS line ∧ parseNatTok t = none) := by
  rcases hspl : splitWS line with _ | ⟨wtok, ctoks⟩
  · have hp : parse_internal_ballot line = .error .emptyLine := by
      simp [parse_internal_ballot, hspl]
    rw [hp]
    refine ⟨by simp, by simp, by simp, by simp⟩
  · cases h1 : parseTok wtok with
    | error e =>
      obtain ⟨he, hnone⟩ := parseTok_error wtok e h1
      subst he
      have hp : parse_internal_ballot line = .error (.badToken wtok) := by
        simp [parse_internal_ballot, hspl, h1]
      rw [hp]
      refine ⟨by simp, ?_, by simp, ?_⟩
      · exact iff_of_true ⟨wtok, rfl⟩ ⟨wtok, by simp, hnone⟩
      · intro t ht
        simp only [Except.error.injEq, ParseError.badToken.injEq] at ht
        subst ht
        exact ⟨by simp, hnone⟩
    | ok w0 =>
      have hw0 := parseTok_ok wtok w0 h1
      cases h2 : parseToks ctoks with
      | error e =>
        obtain ⟨t0, he⟩ := parseToks_error_shape ctoks e h2
        subst he
        obtain ⟨ht0mem, ht0none⟩ := parseToks_error_mem ctoks t0 h2
        have hp : parse_internal_ballot line = .error (.badToken t0) := by
          simp [parse_internal_ballot, hspl, h1, h2]
        rw [hp]
        refine ⟨by simp, ?_, by simp, ?_⟩
        · exact iff_of_true ⟨t0, rfl⟩ ⟨t0, by simp [ht0mem], ht0none⟩
        · intro t ht
          simp only [Except.error.injEq, ParseError.badToken.injEq] at ht
          subst ht
          exact ⟨by simp [ht0mem], ht0none⟩
      | ok cs0 =>
        have hp : parse_internal_ballot line = .ok (w0, cs0) := by
          simp [parse_internal_ballot, hspl, h1, h2]
        rw [hp]
        refine ⟨?_, ?_, by simp, by simp⟩
        · intro w cs h
          simp only [Except.ok.injEq, Prod.mk.injEq] at h
          obtain ⟨rfl, rfl⟩ := h
          exact ⟨wtok, ctoks, rfl, hw0, parseToks_ok_map ctoks cs0 h2⟩
        · refine iff_of_false (by simp) ?_
          rintro ⟨t, ht, htn⟩
          rcases List.mem_cons.mp ht with rfl | hm
          · rw [hw0] at htn; cases htn
          · exact parseToks_ok_not_none ctoks cs0 h2 t hm htn

/-- Witness for C7 at the concrete lines of `test_parse_internal_ballot`
and `test_parse_internal_ballot__non_integer`. -/
theorem parse_internal_ballot_spec_witness :
    parse_internal_ballot "1 2".data = .ok (1, [2]) ∧
    parse_internal_ballot " 1 2".data = .ok (1, [2]) ∧
    parse_internal_ballot "1 2 \n".data = .ok (1, [2]) ∧
    parse_internal_ballot "1".data = .ok (1, []) ∧
    parse_internal_ballot "f 2 \n".data = .error (.badToken ['f']) ∧
    (['f'] ∈ splitWS "f 2 \n".data ∧ parseNatTok ['f'] = none) :=
  ⟨rfl, rfl, rfl, rfl, rfl,
    (parse_internal_ballot_spec "f 2 \n".data).2.2.2 ['f'] rfl⟩

/-- Claim C2: the majority threshold is floor division of the total by two,
plus one. -/
theorem get_majority_spec (t n : Nat) :
    get_majority t = t / 2 + 1 ∧
    get_majority 0 = 1 ∧
    get_majority (2 * n) = n + 1 ∧
    get_majority (2 * n + 1) = n + 1 := by
  refine ⟨rfl, rfl, ?_, ?_⟩ <;> · simp only [get_majority]; omega

lemma lexLe_total : ∀ (a b : List Nat), lexLe a b = true ∨ lexLe b a = true := by
  intro a
  induction a with
  | nil => intro b; left; rfl
  | cons x as ih =>
    intro b
    cases b with
    | nil => right; rfl
    | cons y bs =>
      rcases Nat.lt_trichotomy x y with h | h | h
      · left; simp [lexLe, h]
      · subst h
        rcases ih bs with h2 | h2
        · left; simp [lexLe, h2]
        · right; simp [lexLe, h2]
      · right; simp [lexLe, h]

lemma lexLe_trans :
    ∀ (a b c : List Nat),
      lexLe a b = true → lexLe b c = true → lexLe a c = true := by
  intro a
  induction a with
  | nil => intro b c _ _; rfl
  | cons x as ih =>
    intro b c hab hbc
    cases b with
    | nil => simp [lexLe] at hab
    | cons y bs =>
      cases c with
      | nil => simp [lexLe] at hbc
      | cons z cs =>
        simp only [lexLe] at hab hbc ⊢
        by_cases hxy : x < y
        · by_cases hyz : y < z
          · rw [if_pos (by omega)]
          · by_cases hyz2 : y = z
            · rw [if_pos (by omega)]
            · rw [if_neg hyz, if_neg hyz2] at hbc
              cases hbc
        · by_cases hxy2 : x = y
          · subst hxy2
            rw [if_neg hxy, if_pos rfl] at hab
            by_cases hyz : x < z
            · rw [if_pos hyz]
            · by_cases hyz2 : x = z
              · rw [if_neg hyz, if_pos hyz2]
                subst hyz2
                rw [if_neg hyz, if_pos rfl] at hbc
                exact ih bs cs hab hbc
              · rw [if_neg hyz, if_neg hyz2] at hbc
                cases hbc
          · rw [if_neg hxy, if_neg hxy2] at hab
            cases hab

lemma lexLe_antisymm :
    ∀ (a b : List Nat), lexLe a b = true → lexLe b a = true → a = b := by
  intro a
  induction a with
  | nil =>
    intro b _ hba
    cases b with
    | nil => rfl
    | cons y bs => simp [lexLe] at hba
  | cons x as ih =>
    intro b hab hba
    cases b with
    | nil => simp [lexLe] at hab
    | cons y bs =>
      simp only [lexLe] at hab hba
      by_cases hxy : x < y
      · rw [if_neg (by omega), if_neg (by omega)] at hba
        cases hba
      · by_cases hxy2 : x = y
        · subst hxy2
          rw [if_neg hxy, if_pos rfl] at hab
          rw [if_neg hxy, if_pos rfl] at hba
          rw [ih bs hab hba]
        · rw [if_neg hxy, if_neg hxy2] at hab
          cases hab

lemma normKeys_perm (ballots : List (Nat × List Nat)) :
    List.Perm (normKeys ballots) (ballots.map Prod.snd).dedup :=
  List.perm_insertionSort _ _

lemma normKeys_nodup (ballots : List (Nat × List Nat)) :
    (normKeys ballots).Nodup :=
  (normKeys_perm ballots).symm.nodup (List.nodup_dedup _)

lemma normKeys_sorted (ballots : List (Nat × List Nat)) :
    List.Sorted (fun a b => lexLe a b = true) (normKeys ballots) := by
  haveI : IsTotal (List Nat) (fun a b => lexLe a b = true) := ⟨lexLe_total⟩
  haveI : IsTrans (List Nat) (fun a b => lexLe a b = true) := ⟨lexLe_trans⟩
  exact List.sorted_insertionSort _ _

lemma mem_normKeys {c : List Nat} {ballots : List (Nat × List Nat)} :
    c ∈ normKeys ballots ↔ c ∈ ballots.map Prod.snd := by
  rw [(normKeys_perm ballots).mem_iff, List.mem_dedup]

lemma normalizeBallots_map_snd (ballots : List (Nat × List Nat)) :
    (normalizeBallots ballots).map Prod.snd = normKeys ballots := by
  simp [normalizeBallots, List.map_map, Function.comp_def]

lemma groupTotal_cons (b : Nat × List Nat) (bs : List (Nat × List Nat))
    (c : List Nat) :
    groupTotal (b :: bs) c =
      (if b.2 = c then b.1 else 0) + groupTotal bs c := by
  by_cases hb : b.2 = c <;> simp [groupTotal, List.filter_cons, hb]

lemma sum_split :
    ∀ (ballots : List (Nat × List Nat)) (k : List Nat),
      ((ballots.filter (fun b => b.2 = k)).map Prod.fst).sum +
        ((ballots.filter (fun b => b.2 ≠ k)).map Prod.fst).sum
      = (ballots.map Prod.fst).sum := by
  intro ballots k
  induction ballots with
  | nil => rfl
  | cons b bs ih =>
    rw [List.filter_cons, List.filter_cons]
    by_cases hb : b.2 = k
    · rw [if_pos (by simp [hb]), if_neg (by simp [hb])]
      simp only [List.map_cons, List.sum_cons]
      omega
    · rw [if_neg (by simp [hb]), if_pos (by simp [hb])]
      simp only [List.map_cons, List.sum_cons]
      omega

lemma groupTotal_filter_ne (ballots : List (Nat × List Nat))
    (k k' : List Nat) (h : k' ≠ k) :
    groupTotal (ballots.filter (fun b => b.2 ≠ k)) k' =
      groupTotal ballots k' := by
  induction ballots with
  | nil => rfl
  | cons b bs ih =>
    rw [List.filter_cons]
    by_cases hb : b.2 = k
    · have hb' : b.2 ≠ k' := by rw [hb]; exact fun hh => h hh.symm
      rw [if_neg (by simp [hb])]
      rw [ih, groupTotal_cons, if_neg hb']
      omega
    · rw [if_pos (by simp [hb])]
      rw [groupTotal_cons, groupTotal_cons, ih]

lemma sum_groupTotals :
    ∀ (keys : List (List Nat)) (ballots : List (Nat × List Nat)),
      keys.Nodup → (∀ b ∈ ballots, b.2 ∈ keys) →
      (keys.map (groupTotal ballots)).sum = (ballots.map Prod.fst).sum := by
  intro keys
  induction keys with
  | nil =>
    intro ballots _ hcov
    cases ballots with
    | nil => rfl
    | cons b bs => exact absurd (hcov b (by simp)) (by simp)
  | cons k ks ih =>
    intro ballots hnd hcov
    have hk : k ∉ ks := (List.nodup_cons.mp hnd).1
    have hnd2 : ks.Nodup := (List.nodup_cons.mp hnd).2
    rw [List.map_cons, List.sum_cons]
    have h1 : ks.map (groupTotal ballots) =
        ks.map (groupTotal (ballots.filter (fun b => b.2 ≠ k))) := by
      refine List.map_congr_left ?_
      intro k' hk'
      exact (groupTotal_filter_ne ballots k k'
        (fun hh => hk (hh ▸ hk'))).symm
    rw [h1, ih (ballots.filter (fun b => b.2 ≠ k)) hnd2 ?_]
    · have h2 := sum_split ballots k
      have h3 : groupTotal ballots k =
          ((ballots.filter (fun b => b.2 = k)).map Prod.fst).sum := rfl
      omega
    · intro b hb
      have hb1 : b ∈ ballots := List.mem_of_mem_filter hb
      have hb2 : b.2 ≠ k := by
        have := List.of_mem_filter hb
        simpa using this
      rcases List.mem_cons.mp (hcov b hb1) with hh | hh
      · exact absurd hh hb2
      · exact hh

/-- Weight conservation of normalization over parsed ballots. -/
lemma normalizeBallots_weight_sum (ballots : List (Nat × List Nat)) :
    ((normalizeBallots ballots).map Prod.fst).sum =
      (ballots.map Prod.fst).sum := by
  have h1 : (normalizeBallots ballots).map Prod.fst =
      (normKeys ballots).map (groupTotal ballots) := by
    simp [normalizeBallots, List.map_map]
  rw [h1]
  have h2 := ((normKeys_perm ballots).map (groupTotal ballots)).sum_eq
  rw [h2]
  exact sum_groupTotals _ ballots (List.nodup_dedup _)
    (fun b hb => List.mem_dedup.mpr (List.mem_map_of_mem _ hb))

/-- Claim C5: normalization parses every line, yields exactly one group per
distinct choice sequence — carrying the summed weight of the ballots in
that group — and presents the groups in ascending lexicographic order
of choices. -/
theorem normalized_ballots_spec :
    ∀ (lines : List (List Char)) (ballots : List (Nat × List Nat)),
      parseAll lines = .ok ballots →
      ∃ out, normalized_ballots lines = .ok out ∧
        (out.map Prod.snd).Nodup ∧
        List.Sorted (fun a b => lexLe a b = true) (out.map Prod.snd) ∧
        (∀ c, c ∈ out.map Prod.snd ↔ c ∈ ballots.map Prod.snd) ∧
        (∀ w c, (w, c) ∈ out → w = groupTotal ballots c) := by
  intro lines ballots h
  refine ⟨normalizeBallots ballots, ?_, ?_, ?_, ?_, ?_⟩
  · simp [normalized_ballots, h, Except.map]
  · rw [normalizeBallots_map_snd]; exact normKeys_nodup ballots
  · rw [normalizeBallots_map_snd]; exact normKeys_sorted ballots
  · intro c; rw [normalizeBallots_map_snd]; exact mem_normKeys
  · intro w c hwc
    simp only [normalizeBallots, List.mem_map] at hwc
    obtain ⟨c2, _, heq⟩ := hwc
    injection heq with h1 h2
    rw [← h1, h2]

/-- Witness for C5 at the spec's end-to-end example 1: the six lines of
`test_normalized_ballots` produce `[(3, ()), (4, (1,)), (2, (2,)),
(1, (3,))]`. -/
theorem normalized_ballots_spec_witness :
    normalized_ballots
        ["1 2".data, "1".data, "1 3".data, "2".data, "4 1".data, "1 2".data]
      = .ok [(3, []), (4, [1]), (2, [2]), (1, [3])] ∧
    (∃ out, normalized_ballots
        ["1 2".data, "1".data, "1 3".data, "2".data, "4 1".data, "1 2".data]
      = .ok out ∧
      (out.map Prod.snd).Nodup ∧
      List.Sorted (fun a b => lexLe a b = true) (out.map Prod.snd) ∧
      (∀ c, c ∈ out.map Prod.snd ↔
        c ∈ ([(1, [2]), (1, []), (1, [3]), (2, []), (4, [1]), (1, [2])] :
          List (Nat × List Nat)).map Prod.snd) ∧
      (∀ w c, (w, c) ∈ out →
        w = groupTotal
          [(1, [2]), (1, []), (1, [3]), (2, []), (4, [1]), (1, [2])] c)) :=
  ⟨rfl, normalized_ballots_spec
    ["1 2".data, "1".data, "1 3".data, "2".data, "4 1".data, "1 2".data]
    [(1, [2]), (1, []), (1, [3]), (2, []), (4, [1]), (1, [2])] rfl⟩

/-- Claim C6: normalization conserves total ballot weight and yields no two
groups with the same choice sequence. -/
theorem normalize_weight_conservation :
    ∀ (lines : List (List Char)) (ballots : List (Nat × List Nat)),
      parseAll lines = .ok ballots →
      ∃ out, normalized_ballots lines = .ok out ∧
        (out.map Prod.fst).sum = (ballots.map Prod.fst).sum ∧
        (out.map Prod.snd).Nodup := by
  intro lines ballots h
  refine ⟨normalizeBallots ballots, ?_, normalizeBallots_weight_sum ballots, ?_⟩
  · simp [normalized_ballots, h, Except.map]
  · rw [normalizeBallots_map_snd]; exact normKeys_nodup ballots

/-- Witness for C6 at the lines of `test_normalized_ballots`: total
weight 10 before and after normalization. -/
theorem normalize_weight_conservation_witness :
    (∃ out, normalized_ballots
        ["1 2".data, "1".data, "1 3".data, "2".data, "4 1".data, "1 2".data]
      = .ok out ∧
      (out.map Prod.fst).sum =
        (([(1, [2]), (1, []), (1, [3]), (2, []), (4, [1]), (1, [2])] :
          List (Nat × List Nat)).map Prod.fst).sum ∧
      (out.map Prod.snd).Nodup) ∧
    (([(1, [2]), (1, []), (1, [3]), (2, []), (4, [1]), (1, [2])] :
      List (Nat × List Nat)).map Prod.fst).sum = 10 :=
  ⟨normalize_weight_conservation
    ["1 2".data, "1".data, "1 3".data, "2".data, "4 1".data, "1 2".data]
    [(1, [2]), (1, []), (1, [3]), (2, []), (4, [1]), (1, [2])] rfl, rfl⟩

lemma parseAll_ok_all :
    ∀ (lines : List (List Char)) (bs : List (Nat × List Nat)),
      parseAll lines = .ok bs →
      ∀ line ∈ lines, ∃ b, parse_internal_ballot line = .ok b := by
  intro lines
  induction lines with
  | nil => intro bs _ line hline; simp at hline
  | cons l ls ih =>
    intro bs h line hline
    simp only [parseAll] at h
    cases h1 : parse_internal_ballot l with
    | error e => rw [h1] at h; cases h
    | ok b =>
      rw [h1] at h
      cases h2 : parseAll ls with
      | error e => rw [h2] at h; cases h
      | ok bs2 =>
        rcases List.mem_cons.mp hline with rfl | hm
        · exact ⟨b, h1⟩
        · exact ih bs2 h2 line hm

lemma parseAll_ok_filterMap :
    ∀ (lines : List (List Char)) (bs : List (Nat × List Nat)),
      parseAll lines = .ok bs →
      bs = lines.filterMap (fun line => (parse_internal_ballot line).toOption) := by
  intro lines
  induction lines with
  | nil =>
    intro bs h
    simp only [parseAll] at h
    cases h
    rfl
  | cons l ls ih =>
    intro bs h
    simp only [parseAll] at h
    cases h1 : parse_internal_ballot l with
    | error e => rw [h1] at h; cases h
    | ok b =>
      rw [h1] at h
      cases h2 : parseAll ls with
      | error e => rw [h2] at h; cases h
      | ok bs2 =>
        rw [h2] at h
        cases h
        simp [List.filterMap_cons, h1, Except.toOption, ih bs2 h2]

lemma parseAll_all_ok :
    ∀ (lines : List (List Char)),
      (∀ line ∈ lines, ∃ b, parse_internal_ballot line = .ok b) →
      ∃ bs, parseAll lines = .ok bs := by
  intro lines
  induction lines with
  | nil => intro _; exact ⟨[], rfl⟩
  | cons l ls ih =>
    intro h
    obtain ⟨b, hb⟩ := h l (by simp)
    obtain ⟨bs, hbs⟩ := ih (fun line hline => h line (by simp [hline]))
    refine ⟨b :: bs, ?_⟩
    simp [parseAll, hb, hbs]

lemma parseAll_perm {lines₁ lines₂ : List (List Char)}
    (hp : List.Perm lines₁ lines₂) (bs₁ : List (Nat × List Nat))
    (h : parseAll lines₁ = .ok bs₁) :
    ∃ bs₂, parseAll lines₂ = .ok bs₂ ∧ List.Perm bs₁ bs₂ := by
  obtain ⟨bs₂, h2⟩ := parseAll_all_ok lines₂
    (fun line hline =>
      parseAll_ok_all lines₁ bs₁ h line (hp.mem_iff.mpr hline))
  refine ⟨bs₂, h2, ?_⟩
  rw [parseAll_ok_filterMap lines₁ bs₁ h, parseAll_ok_filterMap lines₂ bs₂ h2]
  exact hp.filterMap _

lemma groupTotal_perm {bs₁ bs₂ : List (Nat × List Nat)}
    (h : List.Perm bs₁ bs₂) (c : List Nat) :
    groupTotal bs₁ c = groupTotal bs₂ c :=
  ((h.filter _).map Prod.fst).sum_eq

lemma normKeys_perm_eq {bs₁ bs₂ : List (Nat × List Nat)}
    (h : List.Perm bs₁ bs₂) : normKeys bs₁ = normKeys bs₂ := by
  have hperm : List.Perm (normKeys bs₁) (normKeys bs₂) :=
    ((normKeys_perm bs₁).trans ((h.map Prod.snd).dedup)).trans
      (normKeys_perm bs₂).symm
  haveI : IsAntisymm (List Nat) (fun a b => lexLe a b = true) :=
    ⟨lexLe_antisymm⟩
  exact List.eq_of_perm_of_sorted hperm (normKeys_sorted bs₁)
    (normKeys_sorted bs₂)

lemma normalizeBallots_perm {bs₁ bs₂ : List (Nat × List Nat)}
    (h : List.Perm bs₁ bs₂) :
    normalizeBallots bs₁ = normalizeBallots bs₂ := by
  unfold normalizeBallots
  rw [normKeys_perm_eq h]
  exact List.map_congr_left
    (fun c _ => by rw [groupTotal_perm h c])

/-- Claim C9: normalization is insensitive to the order of the input lines —
any permutation of the lines that normalizes successfully yields the
identical output sequence. -/
theorem normalized_ballots_perm_invariant :
    ∀ (lines₁ lines₂ : List (List Char)), List.Perm lines₁ lines₂ →
      ∀ out, normalized_ballots lines₁ = .ok out →
        normalized_ballots lines₂ = .ok out := by
  intro lines₁ lines₂ hp out h
  simp only [normalized_ballots] at h ⊢
  cases h1 : parseAll lines₁ with
  | error e => rw [h1] at h; cases h
  | ok bs₁ =>
    rw [h1] at h
    simp only [Except.map] at h
    obtain ⟨bs₂, h2, hperm⟩ := parseAll_perm hp bs₁ h1
    rw [h2]
    simp only [Except.map]
    rw [← normalizeBallots_perm hperm]
    exact h

/-- Witness for C9: swapping the two lines `3 1` and `2 2` leaves the
normalized output unchanged. -/
theorem normalized_ballots_perm_invariant_witness :
    normalized_ballots ["3 1".data, "2 2".data] = .ok [(3, [1]), (2, [2])] :=
  normalized_ballots_perm_invariant ["2 2".data, "3 1".data]
    ["3 1".data, "2 2".data] (List.Perm.swap _ _ _)
    [(3, [1]), (2, [2])] rfl

lemma parseAll_map_serialize :
    ∀ (gs : List (Nat × List Nat)),
      parseAll (gs.map serialize_ballot) = .ok gs := by
  intro gs
  induction gs with
  | nil => rfl
  | cons g gs ih =>
    simp [parseAll, parse_serialize g, ih]

lemma groupTotal_eq_zero_of_not_mem (bs : List (Nat × List Nat))
    (c : List Nat) (h : c ∉ bs.map Prod.snd) : groupTotal bs c = 0 := by
  induction bs with
  | nil => rfl
  | cons b bs ih =>
    rw [groupTotal_cons, if_neg (fun hh => h (by simp [← hh])),
      ih (fun hh => h (by simp [hh]))]

lemma map_groupTotal_self :
    ∀ (gs : List (Nat × List Nat)), (gs.map Prod.snd).Nodup →
      (gs.map Prod.snd).map (fun c => (groupTotal gs c, c)) = gs := by
  intro gs
  induction gs with
  | nil => intro _; rfl
  | cons g gs ih =>
    intro hnd
    obtain ⟨w, c⟩ := g
    simp only [List.map_cons] at hnd ⊢
    have hc : c ∉ gs.map Prod.snd := (List.nodup_cons.mp hnd).1
    have hnd2 : (gs.map Prod.snd).Nodup := (List.nodup_cons.mp hnd).2
    have hhead : groupTotal ((w, c) :: gs) c = w := by
      rw [groupTotal_cons, if_pos rfl,
        groupTotal_eq_zero_of_not_mem gs c hc]
      rfl
    have htail : (gs.map Prod.snd).map
        (fun c2 => (groupTotal ((w, c) :: gs) c2, c2)) =
        (gs.map Prod.snd).map (fun c2 => (groupTotal gs c2, c2)) := by
      refine List.map_congr_left ?_
      intro c2 hc2
      have hne : (c : List Nat) ≠ c2 := fun hh => hc (hh ▸ hc2)
      rw [groupTotal_cons]
      simp only [if_neg hne, Nat.zero_add]
    rw [hhead, htail, ih hnd2]

lemma insertionSort_sorted_eq {l : List (List Nat)}
    (h : List.Sorted (fun a b => lexLe a b = true) l) :
    List.insertionSort (fun a b => lexLe a b = true) l = l := by
  haveI : IsTotal (List Nat) (fun a b => lexLe a b = true) := ⟨lexLe_total⟩
  haveI : IsTrans (List Nat) (fun a b => lexLe a b = true) := ⟨lexLe_trans⟩
  haveI : IsAntisymm (List Nat) (fun a b => lexLe a b = true) :=
    ⟨lexLe_antisymm⟩
  exact List.eq_of_perm_of_sorted (List.perm_insertionSort _ l)
    (List.sorted_insertionSort _ l) h

lemma normalizeBallots_eq_self (gs : List (Nat × List Nat))
    (hnd : (gs.map Prod.snd).Nodup)
    (hsort : List.Sorted (fun a b => lexLe a b = true) (gs.map Prod.snd)) :
    normalizeBallots gs = gs := by
  have h1 : normKeys gs = gs.map Prod.snd := by
    unfold normKeys
    rw [List.dedup_eq_self.mpr hnd]
    exact insertionSort_sorted_eq hsort
  unfold normalizeBallots
  rw [h1]
  exact map_groupTotal_self gs hnd

/-- Claim C8: normalization is idempotent — serializing the groups produced
by a successful normalization and normalizing the resulting lines
reproduces exactly the same groups in the same order. -/
theorem normalize_idempotent :
    ∀ (lines : List (List Char)) (gs : List (Nat × List Nat)),
      normalized_ballots lines = .ok gs →
      normalized_ballots (gs.map serialize_ballot) = .ok gs := by
  intro lines gs h
  simp only [normalized_ballots] at h ⊢
  cases h1 : parseAll lines with
  | error e => rw [h1] at h; cases h
  | ok bs =>
    rw [h1] at h
    simp only [Except.map] at h
    have hgs : gs = normalizeBallots bs := by
      injection h with h2
      exact h2.symm
    rw [parseAll_map_serialize gs]
    simp only [Except.map]
    subst hgs
    rw [normalizeBallots_eq_self (normalizeBallots bs)
      (by rw [normalizeBallots_map_snd]; exact normKeys_nodup bs)
      (by rw [normalizeBallots_map_snd]; exact normKeys_sorted bs)]

/-- Witness for C8 at the lines of `test_normalized_ballots`:
serializing the four normalized groups and normalizing again returns
the same four groups. -/
theorem normalize_idempotent_witness :
    normalized_ballots
        (([(3, []), (4, [1]), (2, [2]), (1, [3])] :
          List (Nat × List Nat)).map serialize_ballot)
      = .ok [(3, []), (4, [1]), (2, [2]), (1, [3])] :=
  normalize_idempotent
    ["1 2".data, "1".data, "1 3".data, "2".data, "4 1".data, "1 2".data]
    [(3, []), (4, [1]), (2, [2]), (1, [3])] rfl

lemma getTotal_cons (p : Nat × Nat) (rest : List (Nat × Nat)) (c : Nat) :
    getTotal (p :: rest) c =
      (if p.1 = c then p.2 else 0) + getTotal rest c := by
  by_cases hp : p.1 = c <;> simp [getTotal, List.filter_cons, hp]

lemma firstChoiceWeight_cons (b : Nat × List Nat)
    (bs : List (Nat × List Nat)) (c : Nat) :
    firstChoiceWeight (b :: bs) c =
      (if b.2.head? = some c then b.1 else 0) + firstChoiceWeight bs c := by
  by_cases hb : b.2.head? = some c <;>
    simp [firstChoiceWeight, List.filter_cons, hb]

lemma addVote_spec :
    ∀ (totals : List (Nat × Nat)) (c w : Nat),
      c ∈ totals.map Prod.fst →
      ∃ t, addVote totals c w = some t ∧
        t.map Prod.fst = totals.map Prod.fst ∧
        getTotal t c = getTotal totals c + w ∧
        ∀ c2, c2 ≠ c → getTotal t c2 = getTotal totals c2 := by
  intro totals
  induction totals with
  | nil => intro c w h; simp at h
  | cons p rest ih =>
    intro c w h
    obtain ⟨c0, v⟩ := p
    by_cases hc : c0 = c
    · subst hc
      refine ⟨(c0, v + w) :: rest, by simp [addVote], by simp, ?_, ?_⟩
      · rw [getTotal_cons, getTotal_cons, if_pos rfl, if_pos rfl]
        omega
      · intro c2 h2
        rw [getTotal_cons, getTotal_cons,
          if_neg (fun hh => h2 hh.symm), if_neg (fun hh => h2 hh.symm)]
    · have hmem : c ∈ rest.map Prod.fst := by
        simp only [List.map_cons, List.mem_cons] at h
        rcases h with hh | hh
        · exact absurd hh.symm hc
        · exact hh
      obtain ⟨t, ht, hkeys, hself, hother⟩ := ih c w hmem
      refine ⟨(c0, v) :: t, ?_, by simp [hkeys], ?_, ?_⟩
      · simp [addVote, hc, ht]
      · rw [getTotal_cons, getTotal_cons, if_neg hc, hself]
        omega
      · intro c2 h2
        rw [getTotal_cons, getTotal_cons, hother c2 h2]

lemma tallyBallots_spec :
    ∀ (ballots : List (Nat × List Nat)) (totals : List (Nat × Nat)),
      (∀ b ∈ ballots, ∀ c cs, b.2 = c :: cs → c ∈ totals.map Prod.fst) →
      ∃ out, tallyBallots ballots totals = .ok out ∧
        out.map Prod.fst = totals.map Prod.fst ∧
        ∀ c, getTotal out c =
          getTotal totals c + firstChoiceWeight ballots c := by
  intro ballots
  induction ballots with
  | nil =>
    intro totals _
    exact ⟨totals, rfl, rfl,
      fun c => by simp [firstChoiceWeight]⟩
  | cons b bs ih =>
    intro totals h
    obtain ⟨w, cs⟩ := b
    cases cs with
    | nil =>
      obtain ⟨out, hout, hkeys, hval⟩ :=
        ih totals (fun b2 hb2 => h b2 (by simp [hb2]))
      refine ⟨out, hout, hkeys, ?_⟩
      intro c
      rw [hval c, firstChoiceWeight_cons]
      simp
    | cons c0 cs2 =>
      have hc0 : c0 ∈ totals.map Prod.fst :=
        h (w, c0 :: cs2) (by simp) c0 cs2 rfl
      obtain ⟨t, ht, hkeys, hself, hother⟩ := addVote_spec totals c0 w hc0
      obtain ⟨out, hout, hkeys2, hval⟩ := ih t
        (fun b2 hb2 c cs hbc => by
          rw [hkeys]; exact h b2 (by simp [hb2]) c cs hbc)
      refine ⟨out, ?_, by rw [hkeys2, hkeys], ?_⟩
      · simp only [tallyBallots, ht]
        exact hout
      · intro c
        rw [hval c, firstChoiceWeight_cons]
        by_cases hcc : c0 = c
        · subst hcc
          rw [hself]
          have hif : (if (c0 :: cs2).head? = some c0 then w else 0) = w := by
            simp
          rw [hif]
          omega
        · rw [hother c (fun hh => hcc hh.symm)]
          have hif : (if (c0 :: cs2).head? = some c then w else 0) = 0 := by
            rw [if_neg]
            simp only [List.head?_cons, Option.some.injEq]
            exact hcc
          rw [hif]
          omega

lemma initTotals_map_fst (candidates : List Nat) :
    (initTotals candidates).map Prod.fst = candidates := by
  simp [initTotals, List.map_map, Function.comp_def]

lemma getTotal_initTotals (candidates : List Nat) (c : Nat) :
    getTotal (initTotals candidates) c = 0 := by
  induction candidates with
  | nil => rfl
  | cons c0 cands ih =>
    simp only [initTotals, List.map_cons] at ih ⊢
    rw [getTotal_cons, ih]
    simp

/-- Claim C1: when every non-empty ballot leads with a declared candidate,
`tally` succeeds, its totals list is keyed by exactly the supplied
candidates, and every candidate's total is the summed weight of the
ballots whose first choice is that candidate (zero for candidates no
ballot puts first; exhausted ballots count for nobody). -/
theorem tally_spec :
    ∀ (ballots : List (Nat × List Nat)) (candidates : List Nat),
      (∀ b ∈ ballots, ∀ c cs, b.2 = c :: cs → c ∈ candidates) →
      ∃ totals, tally ballots candidates = .ok totals ∧
        totals.map Prod.fst = candidates ∧
        ∀ c, getTotal totals c = firstChoiceWeight ballots c := by
  intro ballots candidates h
  obtain ⟨out, hout, hkeys, hval⟩ := tallyBallots_spec ballots
    (initTotals candidates)
    (fun b hb c cs hbc => by
      rw [initTotals_map_fst]; exact h b hb c cs hbc)
  refine ⟨out, hout, by rw [hkeys, initTotals_map_fst], ?_⟩
  intro c
  rw [hval c, getTotal_initTotals]
  omega

/-- Witness for C1 at the spec's end-to-end example 2: the lines
`1 2`, `3 1 4`, `1 2` with candidates `(1, 2, 4)` tally to
`{1: 3, 2: 2, 4: 0}`. -/
theorem tally_spec_witness :
    count_internal_ballots ["1 2\n".data, "3 1 4\n".data, "1 2\n".data]
        [1, 2, 4] = .ok [(1, 3), (2, 2), (4, 0)] ∧
    (∃ totals, tally [(1, [2]), (3, [1, 4]), (1, [2])] [1, 2, 4]
        = .ok totals ∧
      totals.map Prod.fst = [1, 2, 4] ∧
      ∀ c, getTotal totals c =
        firstChoiceWeight [(1, [2]), (3, [1, 4]), (1, [2])] c) :=
  ⟨rfl, tally_spec [(1, [2]), (3, [1, 4]), (1, [2])] [1, 2, 4]
    (by
      intro b hb c cs hbc
      fin_cases hb <;> · injection hbc with h1 h2; subst h1; decide)⟩

lemma filter_majority_length_le_one (totals : List (Nat × Nat)) :
    (totals.filter
      (fun p => get_majority ((totals.map Prod.snd).sum) ≤ p.2)).length
      ≤ 1 := by
  cases hf : totals.filter
      (fun p => get_majority ((totals.map Prod.snd).sum) ≤ p.2) with
  | nil => simp
  | cons p rest =>
    cases rest with
    | nil => simp
    | cons q t =>
      exfalso
      have hsub : List.Sublist (p :: q :: t) totals := by
        rw [← hf]; exact List.filter_sublist totals
      have hsum : ((p :: q :: t).map Prod.snd).sum ≤
          (totals.map Prod.snd).sum :=
        (hsub.map Prod.snd).sum_le_sum (fun a _ => Nat.zero_le a)
      have hp : get_majority ((totals.map Prod.snd).sum) ≤ p.2 := by
        have hmem : p ∈ totals.filter
            (fun p => get_majority ((totals.map Prod.snd).sum) ≤ p.2) := by
          rw [hf]; exact List.mem_cons_self _ _
        simpa using (List.mem_filter.mp hmem).2
      have hq : get_majority ((totals.map Prod.snd).sum) ≤ q.2 := by
        have hmem : q ∈ totals.filter
            (fun p => get_majority ((totals.map Prod.snd).sum) ≤ p.2) := by
          rw [hf]; exact List.mem_cons_of_mem _ (List.mem_cons_self _ _)
        simpa using (List.mem_filter.mp hmem).2
      simp only [List.map_cons, List.sum_cons] at hsum
      simp only [get_majority] at hp hq
      have hdm := Nat.div_add_mod ((totals.map Prod.snd).sum) 2
      have hmod : ((totals.map Prod.snd).sum) % 2 < 2 :=
        Nat.mod_lt _ (by omega)
      omega

/-- Claim C3: `get_winner` returns a candidate exactly when that candidate's
total reaches the majority threshold of the grand total — at most one
candidate can, so the result is unique — and returns `none` otherwise,
including on the exact two-way tie `{1: 5, 2: 5}`. -/
theorem get_winner_spec :
    (∀ (totals : List (Nat × Nat)) (c : Nat),
      get_winner totals = some c ↔
        ∃ v, (c, v) ∈ totals ∧
          get_majority ((totals.map Prod.snd).sum) ≤ v) ∧
    get_winner [(1, 5), (2, 5)] = none := by
  constructor
  · intro totals c
    constructor
    · intro h
      simp only [get_winner] at h
      cases hf : totals.filter
          (fun p => get_majority ((totals.map Prod.snd).sum) ≤ p.2) with
      | nil => rw [hf] at h; cases h
      | cons p rest =>
        cases rest with
        | nil =>
          rw [hf] at h
          injection h with h2
          have hmem : p ∈ totals.filter
              (fun p => get_majority ((totals.map Prod.snd).sum) ≤ p.2) := by
            rw [hf]; exact List.mem_cons_self _ _
          obtain ⟨hmem2, hcond⟩ := List.mem_filter.mp hmem
          refine ⟨p.2, ?_, by simpa using hcond⟩
          rw [← h2]
          exact hmem2
        | cons q t => rw [hf] at h; cases h
    · rintro ⟨v, hmem, hv⟩
      have hcf : (c, v) ∈ totals.filter
          (fun p => get_majority ((totals.map Prod.snd).sum) ≤ p.2) :=
        List.mem_filter.mpr ⟨hmem, by simpa using hv⟩
      have hlen := filter_majority_length_le_one totals
      simp only [get_winner]
      cases hf : totals.filter
          (fun p => get_majority ((totals.map Prod.snd).sum) ≤ p.2) with
      | nil => rw [hf] at hcf; cases hcf
      | cons p rest =>
        cases rest with
        | nil =>
          rw [hf] at hcf
          rcases List.mem_cons.mp hcf with hh | hh
          · rw [← hh]
          · cases hh
        | cons q t =>
          rw [hf] at hlen
          simp at hlen
  · rfl

lemma foldl_min_le_init :
    ∀ (rest : List (Nat × Nat)) (a : Nat),
      rest.foldl (fun x q => min x q.2) a ≤ a := by
  intro rest
  induction rest with
  | nil => intro a; exact Nat.le_refl a
  | cons q rest ih =>
    intro a
    exact Nat.le_trans (ih (min a q.2)) (Nat.min_le_left _ _)

lemma foldl_min_le_mem :
    ∀ (rest : List (Nat × Nat)) (a : Nat) (q : Nat × Nat), q ∈ rest →
      rest.foldl (fun x p => min x p.2) a ≤ q.2 := by
  intro rest
  induction rest with
  | nil => intro a q hq; simp at hq
  | cons q0 rest ih =>
    intro a q hq
    rcases List.mem_cons.mp hq with rfl | hm
    · exact Nat.le_trans (foldl_min_le_init rest (min a q.2))
        (Nat.min_le_right _ _)
    · exact ih (min a q0.2) q hm

lemma foldl_min_attained :
    ∀ (rest : List (Nat × Nat)) (a : Nat),
      rest.foldl (fun x q => min x q.2) a = a ∨
      ∃ q ∈ rest, rest.foldl (fun x q => min x q.2) a = q.2 := by
  intro rest
  induction rest with
  | nil => intro a; left; rfl
  | cons q0 rest ih =>
    intro a
    rcases ih (min a q0.2) with h | ⟨q, hq, hval⟩
    · rcases min_choice a q0.2 with hm | hm
      · left
        rw [List.foldl_cons, h]
        exact hm
      · right
        refine ⟨q0, List.mem_cons_self _ _, ?_⟩
        rw [List.foldl_cons, h]
        exact hm
    · right
      exact ⟨q, List.mem_cons_of_mem _ hq, by
        simp only [List.foldl_cons, hval]⟩

lemma minTotal_le_values (p : Nat × Nat) (rest : List (Nat × Nat)) :
    ∀ q ∈ p :: rest, minTotal (p :: rest) ≤ q.2 := by
  intro q hq
  rcases List.mem_cons.mp hq with rfl | hm
  · exact foldl_min_le_init rest q.2
  · exact foldl_min_le_mem rest p.2 q hm

lemma minTotal_attained (p : Nat × Nat) (rest : List (Nat × Nat)) :
    ∃ q ∈ p :: rest, minTotal (p :: rest) = q.2 := by
  rcases foldl_min_attained rest p.2 with h | ⟨q, hq, hval⟩
  · exact ⟨p, List.mem_cons_self _ _, h⟩
  · exact ⟨q, List.mem_cons_of_mem _ hq, hval⟩

/-- Claim C4: `get_lowest` fails with `EmptyInputError` exactly on an empty
totals list, and on a non-empty one returns exactly the candidates
whose total equals the minimum total (all of them, in a tie). -/
theorem get_lowest_spec :
    ∀ (totals : List (Nat × Nat)),
      (get_lowest totals = .error .emptyInput ↔ totals = []) ∧
      (∀ l, get_lowest totals = .ok l →
        ∀ c, c ∈ l ↔
          ∃ v, (c, v) ∈ totals ∧ ∀ q ∈ totals, v ≤ q.2) := by
  intro totals
  cases totals with
  | nil =>
    refine ⟨by simp [get_lowest], ?_⟩
    intro l h
    cases h
  | cons p rest =>
    refine ⟨by simp [get_lowest], ?_⟩
    intro l h c
    simp only [get_lowest] at h
    injection h with h
    subst h
    constructor
    · intro hc
      obtain ⟨q, hqf, hqc⟩ := List.mem_map.mp hc
      obtain ⟨hqmem, hqcond⟩ := List.mem_filter.mp hqf
      have hqmin : q.2 = minTotal (p :: rest) := by simpa using hqcond
      refine ⟨q.2, ?_, ?_⟩
      · rw [← hqc]
        exact hqmem
      · intro q2 hq2
        rw [hqmin]
        exact minTotal_le_values p rest q2 hq2
    · rintro ⟨v, hmem, hle⟩
      have h1 : minTotal (p :: rest) ≤ v :=
        minTotal_le_values p rest (c, v) hmem
      have h2 : v ≤ minTotal (p :: rest) := by
        obtain ⟨q, hq, hqval⟩ := minTotal_attained p rest
        rw [hqval]
        exact hle q hq
      refine List.mem_map.mpr ⟨(c, v), ?_, rfl⟩
      exact List.mem_filter.mpr ⟨hmem, by simp [Nat.le_antisymm h1 h2]⟩

/-- Witness for C4: empty input fails, and `{1: 5, 2: 6, 3: 5}` selects
the tied-lowest candidates 1 and 3. -/
theorem get_lowest_spec_witness :
    get_lowest [] = .error .emptyInput ∧
    get_lowest [(1, 5), (2, 6), (3, 5)] = .ok [1, 3] ∧
    (1 ∈ [1, 3] ↔
      ∃ v, (1, v) ∈ ([(1, 5), (2, 6), (3, 5)] : List (Nat × Nat)) ∧
        ∀ q ∈ ([(1, 5), (2, 6), (3, 5)] : List (Nat × Nat)), v ≤ q.2) :=
  ⟨(get_lowest_spec []).1.mpr rfl, rfl,
    (get_lowest_spec [(1, 5), (2, 6), (3, 5)]).2 [1, 3] rfl 1⟩

/-- Claim C10: opening a `StringInfo` for writing fails with a `ValueError`
exactly when its value is already set — even to the empty string — and
when the value is unset the written text becomes the stream's value. -/
theorem stringInfo_write_spec :
    ∀ (s : StringInfo) (text : List Char),
      ((∃ e, stringInfoWrite s text = .error e) ↔ s.value ≠ none) ∧
      (s.value = none →
        stringInfoWrite s text = .ok { value := some text }) := by
  intro s text
  obtain ⟨v⟩ := s
  cases v with
  | none =>
    refine ⟨by simp [stringInfoWrite], fun _ => rfl⟩
  | some t =>
    refine ⟨?_, ?_⟩
    · exact iff_of_true ⟨.valueError, rfl⟩ (by simp)
    · intro h
      cases h

/-- Witness for C10: writing to an unset stream stores the text; a
stream whose value is the empty string refuses to open for writing. -/
theorem stringInfo_write_spec_witness :
    stringInfoWrite { value := none } "abc".data
      = .ok { value := some "abc".data } ∧
    (∃ e, stringInfoWrite { value := some [] } "abc".data = .error e) :=
  ⟨(stringInfo_write_spec { value := none } "abc".data).2 rfl,
    (stringInfo_write_spec { value := some [] } "abc".data).1.mpr
      (by simp)⟩

end OpenRCV
